import Mathlib

/-!
# Verification of the MSI table decoder (`refinery/units/formats/msi.py`)

A shallow embedding of the MSI relational-table decoder: column metadata
(`MSITableColumnInfo`), the string pool (`MSIStringData`), the column-major
row reader (`stream_to_rows`), the per-row table post-processing of
`xtmsi.unpack` (bias removal, `MsiFileHash` digest reconstruction,
`CustomAction` payload carving), the string-reference consistency check, and
the final artifact assembly.  Bytes are modelled as `Nat` values below 256 in
`List Nat`; machine integers are `Nat`/`Int` with explicit modulus where
overflow matters; fallible operations return `Option`/`Except`.
-/

namespace Msi

/-- Little-endian read of `w` bytes of `data` starting at offset `off`,
as performed by `struct.unpack` with format characters `H` (w = 2) and
`I` (w = 4) under the `<` byte order.  Out-of-range bytes default to 0;
all uses in theorems are guarded to stay in range. -/
def readLE (data : List Nat) (off : Nat) : Nat → Nat
  | 0 => 0
  | w + 1 => data.getD off 0 + 256 * readLE data (off + 1) w

/-- Known data types for MSI table cell entries (`MsiType`). -/
inductive MsiType where
  | Long
  | Short
  | Binary
  | String
  | StringLocalized
  | Unknown
deriving DecidableEq, Repr

/-- The `IntEnum` lookup `MsiType(value)`: the enum member with the given
value, if any (`Unknown` has value 0). -/
def MsiType.ofCode : Nat → Option MsiType
  | 0x104 => some .Long
  | 0x502 => some .Short
  | 0x900 => some .Binary
  | 0xD00 => some .String
  | 0xF00 => some .StringLocalized
  | 0x000 => some .Unknown
  | _ => none

/-- Information about an MSI table column (`MSITableColumnInfo`),
a pair of 16-bit `number` and `attributes` fields. -/
structure MSITableColumnInfo where
  number : Nat
  attributes : Nat
deriving DecidableEq, Repr

namespace MSITableColumnInfo

/-- The `is_integer` property: `attributes & 0x0F00 < 0x800`. -/
def is_integer (c : MSITableColumnInfo) : Bool :=
  c.attributes &&& 0x0F00 < 0x800

/-- The `type` property: dispatch on the attribute bitfield; a failed enum lookup
yields `Unknown` (the source catches the exception). -/
def type (c : MSITableColumnInfo) : MsiType :=
  if c.is_integer then
    (MsiType.ofCode (c.attributes &&& 0xFFF)).getD .Unknown
  else
    (MsiType.ofCode (c.attributes &&& 0xF00)).getD .Unknown

/-- The `struct_format` property rendered as a byte width: format character `I` (width 4)
for `Long`, `H` (width 2) for everything else. -/
def structWidth (c : MSITableColumnInfo) : Nat :=
  match c.type with
  | .Long => 4
  | _ => 2

end MSITableColumnInfo

/-! ## C1: bias decoding of `Long` and `Short` cells

The cell-typing step of `xtmsi.unpack`:
`if value != 0: value -= 0x80000000` for `Long` columns and
`if value != 0: value -= 0x8000` for `Short` columns. -/

/-- Decoding rule for a raw 32-bit `Long` cell value. -/
def decodeLong (raw : Nat) : Int :=
  if raw = 0 then 0 else (raw : Int) - 0x80000000

/-- Decoding rule for a raw 16-bit `Short` cell value. -/
def decodeShort (raw : Nat) : Int :=
  if raw = 0 then 0 else (raw : Int) - 0x8000

/-- The synthetic encoding of the round-trip property: a signed value `v`
stored as `(v + 0x8000_0000) mod 2^32`. -/
def encodeLong (v : Int) : Nat :=
  ((v + 0x80000000) % (2 ^ 32 : Int)).toNat

/-- C1: a raw `Long` value 0 decodes to 0 and any nonzero raw value `r`
decodes to `r - 0x80000000`; likewise a `Short` value with bias `0x8000`;
consequently every `v` in `[-(2^31-1), 2^31-1]` whose encoding
`(v + 0x80000000) mod 2^32` is nonzero satisfies
`decodeLong (encodeLong v) = v`. -/
theorem c1_bias_decode_roundtrip (v : Int)
    (hlo : -(2 ^ 31 - 1) ≤ v) (hhi : v ≤ 2 ^ 31 - 1)
    (hnz : encodeLong v ≠ 0) :
    decodeLong 0 = 0 ∧ (∀ r : Nat, r ≠ 0 → decodeLong r = (r : Int) - 0x80000000) ∧
    decodeShort 0 = 0 ∧ (∀ r : Nat, r ≠ 0 → decodeShort r = (r : Int) - 0x8000) ∧
    decodeLong (encodeLong v) = v := by
  refine ⟨rfl, fun r hr => by simp [decodeLong, hr], rfl,
    fun r hr => by simp [decodeShort, hr], ?_⟩
  simp only [decodeLong, encodeLong] at hnz ⊢
  rw [if_neg hnz]
  omega

/-- Witness for C1 at `v = -5`. -/
theorem c1_bias_decode_roundtrip_witness :
    decodeLong (encodeLong (-5)) = -5 :=
  (c1_bias_decode_roundtrip (-5) (by norm_num) (by norm_num) (by decide)).2.2.2.2

/-! ## C2: `stream_to_rows`, the column-major row reader

`stream_to_rows(data, row_format)` computes `row_size = calcsize(row_format)`,
`row_count = int(len(data) / row_size)`, then reads one contiguous array of
`row_count` fixed-width little-endian integers per format character from a
sequential reader, and finally yields row `i` as `[c[i] for c in columns]`.
The format string is modelled by the list of byte widths of its characters
(4 for `I`, 2 for `H`). -/

/-- One column array: `row_count` little-endian integers of width `w` read
contiguously starting at offset `off` (the sequential reader's cursor). -/
def readArray (data : List Nat) (off w n : Nat) : List Nat :=
  (List.range n).map fun i => readLE data (off + i * w) w

/-- The per-column arrays, read in column order by a sequential reader whose
cursor starts at `off` and advances by `rc * w` per column of width `w`. -/
def columnsFrom (data : List Nat) (rc : Nat) : List Nat → Nat → List (List Nat)
  | [], _ => []
  | w :: ws, off => readArray data off w rc :: columnsFrom data rc ws (off + rc * w)

/-- The `stream_to_rows` helper: decode the table data stream into rows, given the list
of per-column byte widths. -/
def stream_to_rows (data : List Nat) (ws : List Nat) : List (List Nat) :=
  (List.range (data.length / ws.sum)).map fun i =>
    (columnsFrom data (data.length / ws.sum) ws 0).map fun c => c.getD i 0

theorem readLE_congr (data data₂ : List Nat) :
    ∀ w off, (∀ k, off ≤ k → k < off + w → data.getD k 0 = data₂.getD k 0) →
    readLE data off w = readLE data₂ off w := by
  intro w
  induction w with
  | zero => intro off _; rfl
  | succ w ih =>
    intro off h
    simp only [readLE]
    rw [h off le_rfl (by omega), ih (off + 1) (fun k hk1 hk2 => h k (by omega) (by omega))]

theorem readArray_congr (data data₂ : List Nat) (off w n : Nat)
    (h : ∀ k, off ≤ k → k < off + n * w → data.getD k 0 = data₂.getD k 0) :
    readArray data off w n = readArray data₂ off w n := by
  unfold readArray
  refine List.map_congr_left fun i hi => ?_
  rw [List.mem_range] at hi
  refine readLE_congr data data₂ w (off + i * w) fun k hk1 hk2 => h k (by omega) ?_
  have h1 : (i + 1) * w ≤ n * w := Nat.mul_le_mul_right w hi
  have h2 : (i + 1) * w = i * w + w := by ring
  omega

theorem columnsFrom_congr (data data₂ : List Nat) (rc : Nat) :
    ∀ ws off, (∀ k, k < off + rc * ws.sum → data.getD k 0 = data₂.getD k 0) →
    columnsFrom data rc ws off = columnsFrom data₂ rc ws off := by
  intro ws
  induction ws with
  | nil => intro off _; rfl
  | cons w ws ih =>
    intro off h
    simp only [columnsFrom, List.sum_cons] at h ⊢
    have hdist : rc * (w + ws.sum) = rc * w + rc * ws.sum := by ring
    rw [readArray_congr data data₂ off w rc (fun k _ hk2 => h k (by omega)),
      ih (off + rc * w) (fun k hk => h k (by omega))]

theorem columnsFrom_length (data : List Nat) (rc : Nat) :
    ∀ ws off, (columnsFrom data rc ws off).length = ws.length := by
  intro ws
  induction ws with
  | nil => intro off; rfl
  | cons w ws ih => intro off; simp [columnsFrom, ih]

theorem columnsFrom_getD (data : List Nat) (rc : Nat) :
    ∀ ws off j, j < ws.length →
    (columnsFrom data rc ws off).getD j [] =
      readArray data (off + rc * (ws.take j).sum) (ws.getD j 0) rc := by
  intro ws
  induction ws with
  | nil => intro off j hj; simp at hj
  | cons w ws ih =>
    intro off j hj
    match j with
    | 0 => simp [columnsFrom, readArray]
    | j + 1 =>
      simp only [columnsFrom, List.getD_cons_succ, List.take_succ_cons, List.sum_cons]
      rw [ih (off + rc * w) j (by simpa using hj)]
      have harith : off + rc * w + rc * (ws.take j).sum = off + rc * (w + (ws.take j).sum) := by
        rw [Nat.mul_add]; omega
      rw [harith]

theorem readArray_getD (data : List Nat) (off w n i : Nat) (h : i < n) :
    (readArray data off w n).getD i 0 = readLE data (off + i * w) w := by
  simp [readArray, List.getD_eq_getElem?_getD, List.getElem?_map, List.getElem?_range h]

theorem stream_to_rows_getD (data ws : List Nat) (i : Nat)
    (hi : i < data.length / ws.sum) :
    (stream_to_rows data ws).getD i [] =
      (columnsFrom data (data.length / ws.sum) ws 0).map fun c => c.getD i 0 := by
  simp [stream_to_rows, List.getD_eq_getElem?_getD, List.getElem?_map,
    List.getElem?_range hi]

/-- C2: `stream_to_rows` decodes `row_count = ⌊len(data) / row_width⌋` rows
where `row_width` is the sum of the per-column widths; bytes beyond
`row_count * row_width` never influence the result; the cell at row `i`,
column `j` is the little-endian integer read from the contiguous column-major
array of column `j` (at stream offset `row_count * (sum of widths before j)
+ i * w_j`); and row `i` is formed by taking the `i`-th element of every
per-column array. -/
theorem c2_stream_to_rows_colmajor (data ws : List Nat) (hs : 0 < ws.sum) :
    (stream_to_rows data ws).length = data.length / ws.sum ∧
    stream_to_rows data ws =
      stream_to_rows (data.take ((data.length / ws.sum) * ws.sum)) ws ∧
    (∀ i j, i < data.length / ws.sum → j < ws.length →
      ((stream_to_rows data ws).getD i []).getD j 0 =
        readLE data ((data.length / ws.sum) * (ws.take j).sum + i * ws.getD j 0)
          (ws.getD j 0)) ∧
    (∀ i, i < data.length / ws.sum →
      (stream_to_rows data ws).getD i [] =
        (columnsFrom data (data.length / ws.sum) ws 0).map fun c => c.getD i 0) ∧
    (∀ c : MSITableColumnInfo, c.structWidth = if c.type = .Long then 4 else 2) := by
  set rc := data.length / ws.sum with hrc
  have hrc_le : rc * ws.sum ≤ data.length := Nat.div_mul_le_self _ _
  refine ⟨by simp [stream_to_rows], ?_, ?_, fun i hi => stream_to_rows_getD data ws i hi,
    fun c => by cases h : c.type <;> simp [MSITableColumnInfo.structWidth, h]⟩
  · have hlen : (data.take (rc * ws.sum)).length = rc * ws.sum := by
      simp [List.length_take]; omega
    have hrc2 : (data.take (rc * ws.sum)).length / ws.sum = rc := by
      rw [hlen, Nat.mul_div_cancel _ hs]
    have hcols : columnsFrom data rc ws 0 = columnsFrom (data.take (rc * ws.sum)) rc ws 0 := by
      refine columnsFrom_congr _ _ rc ws 0 fun k hk => ?_
      rw [Nat.zero_add] at hk
      simp [List.getD_eq_getElem?_getD, List.getElem?_take, hk]
    unfold stream_to_rows
    rw [hrc2, ← hrc, hcols]
  · intro i j hi hj
    rw [stream_to_rows_getD data ws i hi, ← hrc]
    have hcl : j < (columnsFrom data rc ws 0).length := by rw [columnsFrom_length]; exact hj
    have : ((columnsFrom data rc ws 0).map fun c => c.getD i 0).getD j 0 =
        ((columnsFrom data rc ws 0).getD j []).getD i 0 := by
      simp [List.getD_eq_getElem?_getD, List.getElem?_map, List.getElem?_eq_getElem hcl]
    rw [this, columnsFrom_getD data rc ws 0 j hj, readArray_getD data _ _ _ i hi,
      Nat.zero_add]

/-- Witness for C2 on a concrete 10-byte stream with one `Long` and one
`Short` column (row width 6, one row, four trailing bytes ignored). -/
theorem c2_stream_to_rows_colmajor_witness :
    (stream_to_rows [1, 0, 0, 0, 2, 0, 9, 9, 9, 9] [4, 2]).length = 1 :=
  (c2_stream_to_rows_colmajor [1, 0, 0, 0, 2, 0, 9, 9, 9, 9] [4, 2] (by decide)).1

/-! ## The string pool: `MSIStringData`

`MSIStringData.__init__` reads a 16-bit codepage and a 16-bit unknown field
from the pool stream, then, until the pool stream is exhausted, reads
`(u16 size, u16 ref_count)` records and pulls `size` bytes from the data
stream for each.  `ref(index, increment=True)` asserts `index > 0`,
optionally increments the computed reference count, and returns the decoded
entry.  Text decoding through the `codecs` module is external; it is
modelled as an abstract function applied to the stored bytes. -/

/-- The state of `MSIStringData`: stored raw byte strings, provided and
computed reference counts, and the codepage field. -/
structure MSIStringData where
  strings : List (List Nat)
  provided_ref_count : List Nat
  computed_ref_count : List Nat
  codepage : Nat
deriving DecidableEq, Repr

/-- Modelled from the spec: the structure reader of the pool stream
(`refinery.lib.structures.StructReader`, not part of the reviewed source)
consumes repeating `(u16 length, u16 provided_ref_count)` little-endian
records until end of stream and fails on a truncated record. -/
def parsePool : List Nat → Option (List (Nat × Nat))
  | [] => some []
  | b0 :: b1 :: b2 :: b3 :: rest =>
    (parsePool rest).map fun rs => (b0 + 256 * b1, b2 + 256 * b3) :: rs
  | _ => none

/-- Modelled from the spec: `read_bytes(size)` of the data-stream reader
(not part of the reviewed source) returns exactly the next `size` bytes and
fails when fewer remain. -/
def takeExact (n : Nat) (l : List Nat) : Option (List Nat × List Nat) :=
  if n ≤ l.length then some (l.take n, l.drop n) else none

/-- The data-stream side of the init loop: pull `size` bytes per record,
in lockstep and sequentially. -/
def readStringsLoop : List (Nat × Nat) → List Nat → Option (List (List Nat))
  | [], _ => some []
  | (size, _) :: recs, d =>
    match takeExact size d with
    | none => none
    | some (s, rest) => (readStringsLoop recs rest).map fun ss => s :: ss

/-- The constructor `MSIStringData.__init__`: decode the `(string_data, string_pool)` pair.
Fails (`None`) where the source raises: pool header shorter than 4 bytes,
truncated pool record, or data stream too short for a record. -/
def msiStringDataInit (string_data string_pool : List Nat) : Option MSIStringData :=
  if 4 ≤ string_pool.length then
    match parsePool (string_pool.drop 4) with
    | none => none
    | some recs =>
      match readStringsLoop recs string_data with
      | none => none
      | some strs =>
        some ⟨strs, recs.map (fun r => r.2), List.replicate recs.length 0,
          readLE string_pool 0 2⟩
  else none

/-- The two exception kinds `ref` can raise: the failed `assert index > 0`
and an out-of-range list subscript. -/
inductive RefError where
  | assertionError
  | indexError
deriving DecidableEq, Repr

instance exceptDecEq {ε α : Type} [DecidableEq ε] [DecidableEq α] :
    DecidableEq (Except ε α) := fun a b =>
  match a, b with
  | .error x, .error y =>
    if h : x = y then isTrue (by rw [h])
    else isFalse (by intro hc; cases hc; exact h rfl)
  | .ok x, .ok y =>
    if h : x = y then isTrue (by rw [h])
    else isFalse (by intro hc; cases hc; exact h rfl)
  | .error _, .ok _ => isFalse (by intro h; cases h)
  | .ok _, .error _ => isFalse (by intro h; cases h)

/-- The statement `self.computed_ref_count[index] += 1` on 0-based index `i`. -/
def MSIStringData.bump (s : MSIStringData) (i : Nat) : MSIStringData :=
  { s with computed_ref_count :=
      s.computed_ref_count.set i (s.computed_ref_count.getD i 0 + 1) }

/-- The method `MSIStringData.ref(index, increment)`: assert `index > 0`, decrement the
index, bump the computed reference count when `increment` is set, and return
the stored bytes (the caller decodes them with the resolved codec). -/
def MSIStringData.ref (s : MSIStringData) (index : Int) (increment : Bool) :
    Except RefError (List Nat × MSIStringData) :=
  if index ≤ 0 then .error .assertionError
  else
    let i := index.toNat - 1
    if i < s.strings.length then
      .ok (s.strings.getD i [], if increment then s.bump i else s)
    else .error .indexError

/-- The composition of `ref` with the external codec decode, as the callers observe it. -/
def MSIStringData.refDecoded (codec : List Nat → String) (s : MSIStringData)
    (index : Int) (increment : Bool) : Except RefError (String × MSIStringData) :=
  (s.ref index increment).map fun r => (codec r.1, r.2)

/-- The membership test `MSIStringData.__contains__`: the pure bounds check
`0 < index <= len(self)`. -/
def MSIStringData.containsIdx (s : MSIStringData) (index : Int) : Bool :=
  0 < index && index ≤ s.strings.length

/-- The sequential slice of `data` at offset `off` of length `len`. -/
def sliceAt (data : List Nat) (off len : Nat) : List Nat :=
  (data.drop off).take len

theorem takeExact_eq (n : Nat) (l : List Nat) (s rest : List Nat)
    (h : takeExact n l = some (s, rest)) :
    n ≤ l.length ∧ s = l.take n ∧ rest = l.drop n := by
  unfold takeExact at h
  by_cases hle : n ≤ l.length
  · rw [if_pos hle] at h
    injection h with h
    exact ⟨hle, congrArg Prod.fst h.symm, congrArg Prod.snd h.symm⟩
  · rw [if_neg hle] at h; exact absurd h (by simp)

theorem readStringsLoop_length :
    ∀ (recs : List (Nat × Nat)) (d : List Nat) (strs : List (List Nat)),
    readStringsLoop recs d = some strs → strs.length = recs.length := by
  intro recs
  induction recs with
  | nil =>
    intro d strs h
    simp only [readStringsLoop, Option.some.injEq] at h
    simp [← h]
  | cons r recs ih =>
    intro d strs h
    obtain ⟨size, rc⟩ := r
    simp only [readStringsLoop] at h
    cases htd : takeExact size d with
    | none => rw [htd] at h; exact absurd h (by simp)
    | some p =>
      obtain ⟨s, rest⟩ := p
      rw [htd] at h
      obtain ⟨ss, hss, hcons⟩ := Option.map_eq_some'.mp h
      simp [← hcons, ih rest ss hss]

theorem readStringsLoop_layout :
    ∀ (recs : List (Nat × Nat)) (d : List Nat) (strs : List (List Nat)),
    readStringsLoop recs d = some strs →
    ∀ j, j < recs.length →
      strs.getD j [] =
        sliceAt d (((recs.take j).map (fun r => r.1)).sum) ((recs.getD j (0, 0)).1) := by
  intro recs
  induction recs with
  | nil => intro d strs _ j hj; simp at hj
  | cons r recs ih =>
    intro d strs h j hj
    obtain ⟨size, rc⟩ := r
    simp only [readStringsLoop] at h
    cases htd : takeExact size d with
    | none => rw [htd] at h; exact absurd h (by simp)
    | some p =>
      obtain ⟨s, rest⟩ := p
      rw [htd] at h
      obtain ⟨ss, hss, hcons⟩ := Option.map_eq_some'.mp h
      obtain ⟨hle, hs, hrest⟩ := takeExact_eq size d s rest htd
      subst hcons
      match j with
      | 0 => simp [sliceAt, hs]
      | j + 1 =>
        have hj2 : j < recs.length := by simpa using hj
        have := ih rest ss hss j hj2
        simp only [List.getD_cons_succ, List.take_succ_cons, List.map_cons, List.sum_cons]
        rw [this, hrest]
        simp only [sliceAt, List.drop_drop]

/-- C3 counterexample: loading a pool whose single record carries provided
reference count 5 yields a computed reference count of 0, not 5, so no
per-entry counter both starts at the provided value and is the one that
`ref` increments. -/
theorem c3_refcount_start_counterexample :
    (msiStringDataInit [97] [0, 0, 0, 0, 1, 0, 5, 0]).map
        MSIStringData.computed_ref_count = some [0] ∧
    (msiStringDataInit [97] [0, 0, 0, 0, 1, 0, 5, 0]).map
        MSIStringData.provided_ref_count = some [5] ∧
    (some [0] : Option (List Nat)) ≠ some [5] := by decide

/-- C3 (amended): for every validly decoded pool, entry `i` holds exactly the
bytes of the `i`-th `(length, ref_count)` record laid out sequentially in the
data stream; the provided counts are stored as given, the computed counts
start at 0 (not at the provided value), and each successful
`ref(i, increment=True)` increases exactly the `i`-th computed count by 1. -/
theorem c3_pool_layout_refcounts (sd sp : List Nat) (recs : List (Nat × Nat))
    (s : MSIStringData) (hp : parsePool (sp.drop 4) = some recs)
    (hinit : msiStringDataInit sd sp = some s) :
    (∀ j, j < recs.length →
      s.strings.getD j [] =
        sliceAt sd (((recs.take j).map (fun r => r.1)).sum) ((recs.getD j (0, 0)).1)) ∧
    s.provided_ref_count = recs.map (fun r => r.2) ∧
    s.computed_ref_count = List.replicate recs.length 0 ∧
    (∀ i b s2, s.ref i true = .ok (b, s2) →
      b = s.strings.getD (i.toNat - 1) [] ∧
      s2.computed_ref_count.getD (i.toNat - 1) 0 =
        s.computed_ref_count.getD (i.toNat - 1) 0 + 1 ∧
      ∀ j, j ≠ i.toNat - 1 →
        s2.computed_ref_count.getD j 0 = s.computed_ref_count.getD j 0) := by
  unfold msiStringDataInit at hinit
  by_cases h4 : 4 ≤ sp.length
  · rw [if_pos h4] at hinit
    simp only [hp] at hinit
    cases hrs : readStringsLoop recs sd with
    | none => simp only [hrs] at hinit; exact absurd hinit (by simp)
    | some strs =>
      simp only [hrs, Option.some.injEq] at hinit
      subst hinit
      refine ⟨fun j hj => readStringsLoop_layout recs sd strs hrs j hj, rfl, rfl, ?_⟩
      intro i b s2 href
      unfold MSIStringData.ref at href
      by_cases hpos : i ≤ 0
      · rw [if_pos hpos] at href; exact absurd href (by simp)
      · rw [if_neg hpos] at href
        by_cases hlt : i.toNat - 1 < strs.length
        · rw [if_pos hlt] at href
          injection href with href
          have hb : b = strs.getD (i.toNat - 1) [] := (congrArg Prod.fst href).symm
          have hs2 : s2 = MSIStringData.bump ⟨strs, _, _, _⟩ (i.toNat - 1) :=
            (congrArg Prod.snd href).symm
          refine ⟨hb, ?_, ?_⟩
          · rw [hs2]
            have hlen : strs.length = recs.length := readStringsLoop_length recs sd strs hrs
            have hlt2 : i.toNat - 1 < recs.length := by omega
            simp only [MSIStringData.bump]
            simp [List.getD_eq_getElem?_getD, List.getElem?_set_self,
              List.length_replicate, hlt2]
          · intro j hj
            rw [hs2]
            simp only [MSIStringData.bump]
            simp [List.getD_eq_getElem?_getD, List.getElem?_set_ne, Ne.symm hj]
        · rw [if_neg hlt] at href; exact absurd href (by simp)
  · rw [if_neg h4] at hinit; exact absurd hinit (by simp)

/-- Witness for C3 on the pool with one record `(length 2, ref_count 7)`
over the data stream `"hi"`. -/
theorem c3_pool_layout_refcounts_witness :
    (MSIStringData.mk [[104, 105]] [7] [0] 1257).strings.getD 0 [] =
      sliceAt [104, 105] 0 2 := by
  have h := (c3_pool_layout_refcounts [104, 105] [233, 4, 0, 0, 2, 0, 7, 0]
    [(2, 7)] (MSIStringData.mk [[104, 105]] [7] [0] 1257)
    (by decide) (by decide)).1 0 (by decide)
  simpa using h

/-- C4 counterexample: `ref(0)` fails the `assert index > 0` with an
`AssertionError`, not with the `IndexError` the claim names. -/
theorem c4_ref_zero_counterexample :
    (MSIStringData.mk [[97]] [5] [0] 0).ref 0 true = .error .assertionError ∧
    (Except.error RefError.assertionError :
        Except RefError (List Nat × MSIStringData)) ≠ .error .indexError := by
  decide

/-- C4 (amended): `ref(index)` fails with `AssertionError` when `index ≤ 0`
and with `IndexError` when `index > len(pool)`; for `index` in
`[1, len(pool)]` it succeeds, returning the stored bytes decoded with the
resolved codec, and bumps that entry's computed counter unless `increment`
is false. -/
theorem c4_ref_bounds (codec : List Nat → String) (s : MSIStringData)
    (i : Int) (inc : Bool) :
    (i ≤ 0 → s.refDecoded codec i inc = .error .assertionError) ∧
    ((s.strings.length : Int) < i → s.refDecoded codec i inc = .error .indexError) ∧
    (1 ≤ i → i ≤ (s.strings.length : Int) →
      s.refDecoded codec i inc =
        .ok (codec (s.strings.getD (i.toNat - 1) []),
          if inc then s.bump (i.toNat - 1) else s)) := by
  refine ⟨fun hle => ?_, fun hgt => ?_, fun h1 h2 => ?_⟩
  · simp [MSIStringData.refDecoded, MSIStringData.ref, hle, Except.map]
  · have hpos : ¬ i ≤ 0 := by omega
    have hge : ¬ (i.toNat - 1 < s.strings.length) := by omega
    simp [MSIStringData.refDecoded, MSIStringData.ref, hpos, hge, Except.map]
  · have hpos : ¬ i ≤ 0 := by omega
    have hlt : i.toNat - 1 < s.strings.length := by omega
    simp [MSIStringData.refDecoded, MSIStringData.ref, hpos, hlt, Except.map]

/-- Witness for C4: a successful in-range `ref` on a one-entry pool. -/
theorem c4_ref_bounds_witness :
    (MSIStringData.mk [[97]] [5] [0] 0).refDecoded (fun _ => "a") 1 true =
      .ok ("a", MSIStringData.mk [[97]] [5] [1] 0) := by
  have h := (c4_ref_bounds (fun _ => "a") (MSIStringData.mk [[97]] [5] [0] 0)
    1 true).2.2 (by decide) (by decide)
  simpa using h

/-- C9: the membership test `contains(index)` holds exactly for
`1 ≤ index ≤ len(pool)` — it is a pure bounds check, embedded as a function
that takes no mutable state and returns none — and `ref(index, False)`
returns the pool state unchanged. -/
theorem c9_contains_pure_frame (s : MSIStringData) (i : Int) :
    (s.containsIdx i = true ↔ 1 ≤ i ∧ i ≤ (s.strings.length : Int)) ∧
    (∀ b s2, s.ref i false = .ok (b, s2) → s2 = s) := by
  constructor
  · simp only [MSIStringData.containsIdx, Bool.and_eq_true, decide_eq_true_eq]
    constructor
    · intro ⟨h1, h2⟩; omega
    · intro ⟨h1, h2⟩; exact ⟨by omega, by omega⟩
  · intro b s2 h
    unfold MSIStringData.ref at h
    by_cases hpos : i ≤ 0
    · rw [if_pos hpos] at h; exact absurd h (by simp)
    · rw [if_neg hpos] at h
      by_cases hlt : i.toNat - 1 < s.strings.length
      · rw [if_pos hlt] at h
        injection h with h
        exact (congrArg Prod.snd h).symm
      · rw [if_neg hlt] at h; exact absurd h (by simp)

/-- Witness for C9: `ref(1, increment=False)` on a one-entry pool leaves
the pool unchanged. -/
theorem c9_contains_pure_frame_witness :
    MSIStringData.mk [[97]] [5] [0] 0 = MSIStringData.mk [[97]] [5] [0] 0 :=
  (c9_contains_pure_frame (MSIStringData.mk [[97]] [5] [0] 0) 1).2 [97]
    (MSIStringData.mk [[97]] [5] [0] 0) (by decide)

/-! ## Table processing: the per-row body of `xtmsi.unpack`

For each table row, `unpack` builds typed cell values (bias removal, string
dereference, empty-string fallback), then applies `MsiFileHash` hash
reconstruction and `CustomAction` comment labelling and payload carving.
Python exceptions raised by subscripts and key lookups are modelled by
`Except PyErr`; the text codec is an abstract parameter. -/

/-- A decoded cell: either an integer or a text value. -/
inductive Cell where
  | num (v : Int)
  | txt (s : String)
deriving DecidableEq, Repr

/-- How an f-string renders a cell value (`str` of an `int`, or the string
itself). -/
def Cell.render : Cell → String
  | .num v => toString v
  | .txt s => s

/-- The Python exceptions the row-processing code can raise. -/
inductive PyErr where
  | indexError
  | keyError
deriving DecidableEq, Repr

/-- Typing of one cell, from the source loop: `Long` and `Short` values lose
their bias unless zero; otherwise a value that is a valid pool index is
dereferenced (with reference-count increment), a non-integer column falls
back to the empty string, and an integer column passes the raw value
through. -/
def cellValue (codec : List Nat → String) (info : MSITableColumnInfo)
    (s : MSIStringData) (value : Nat) : Cell × MSIStringData :=
  match info.type with
  | .Long => (if value = 0 then .num 0 else .num ((value : Int) - 0x80000000), s)
  | .Short => (if value = 0 then .num 0 else .num ((value : Int) - 0x8000), s)
  | _ =>
    if s.containsIdx value then
      (.txt (codec (s.strings.getD (value - 1) [])), s.bump (value - 1))
    else if info.is_integer then (.num value, s)
    else (.txt "", s)

/-- The `values` loop: type every cell in order, threading the pool state. -/
def cellValues (codec : List Nat → String) :
    List MSITableColumnInfo → List Nat → MSIStringData → List Cell × MSIStringData
  | [], _, s => ([], s)
  | _, [], s => ([], s)
  | info :: infos, v :: row, s =>
    let cv := cellValue codec info s v
    let rest := cellValues codec infos row cv.2
    (cv.1 :: rest.1, rest.2)

/-- A record: the ordered `dict(zip(table, values))`. -/
def Entry : Type := List (String × Cell)

/-- Python dict lookup on a record (column names are unique). -/
def lookupEntry (e : List (String × Cell)) (k : String) : Option Cell :=
  (e.find? fun p => p.1 == k).map fun p => p.2

/-- Python dict assignment on a record: overwrite in place, or append. -/
def setEntry (e : List (String × Cell)) (k : String) (v : Cell) :
    List (String × Cell) :=
  if e.any (fun p => p.1 == k) then
    e.map fun p => if p.1 == k then (k, v) else p
  else e ++ [(k, v)]

/-- The `_CUSTOM_ACTION_TYPES` table of `xtmsi`. -/
def customActionTypes : List (Nat × String) :=
  [(0x01, "DLL file stored in a Binary table stream."),
   (0x02, "EXE file stored in a Binary table stream."),
   (0x05, "JScript file stored in a Binary table stream."),
   (0x06, "VBScript file stored in a Binary table stream."),
   (0x11, "DLL file that is installed with a product."),
   (0x12, "EXE file that is installed with a product."),
   (0x13, "Displays a specified error message and returns failure, terminating the installation."),
   (0x15, "JScript file that is installed with a product."),
   (0x16, "VBScript file that is installed with a product."),
   (0x22, "EXE file having a path referencing a directory."),
   (0x23, "Directory set with formatted text."),
   (0x25, "JScript text stored in this sequence table."),
   (0x26, "VBScript text stored in this sequence table."),
   (0x32, "EXE file having a path specified by a property value."),
   (0x33, "Property set with formatted text."),
   (0x35, "JScript text specified by a property value."),
   (0x36, "VBScript text specified by a property value.")]

/-- The lookup `self._CUSTOM_ACTION_TYPES[code]`, as an `Option`. -/
def lookupActionType (code : Nat) : Option String :=
  (customActionTypes.find? fun p => p.1 == code).map fun p => p.2

/-- The four little-endian bytes of `struct.pack('<I', v)` for `v < 2^32`. -/
def u32le (v : Nat) : List Nat :=
  [v % 256, v / 256 % 256, v / 65536 % 256, v / 16777216 % 256]

/-- Lowercase hexadecimal digit. -/
def hexDigit (n : Nat) : Char :=
  if n < 10 then Char.ofNat (48 + n) else Char.ofNat (87 + n)

/-- The rendering `bytes.hex()`: two lowercase hex digits per byte. -/
def bytesHex (bs : List Nat) : String :=
  String.mk ((bs.map fun b => [hexDigit (b % 256 / 16), hexDigit (b % 16)]).flatten)

/-- The sign-bias XOR applied to each stored `MsiFileHash` word. -/
def biasXor32 (v : Nat) : Nat := v ^^^ 0x80000000

/-- The digest `struct.pack('<IIII', row[2]^0x80000000, …, row[5]^0x80000000).hex()`. -/
def msiFileHashHex (row : List Nat) : String :=
  bytesHex (u32le (biasXor32 (row.getD 2 0)) ++ u32le (biasXor32 (row.getD 3 0)) ++
    u32le (biasXor32 (row.getD 4 0)) ++ u32le (biasXor32 (row.getD 5 0)))

/-- The control-character class `[\x01-\x05]` of the carving regex. -/
def isCtrl (c : Char) : Bool := 1 ≤ c.toNat && c.toNat ≤ 5

/-- The source expression `max((m.end() for m in re.finditer(r'[\x01-\x05]', data)), default=0)`:
the maximum over all match end offsets, scanning from position `p`. -/
def ctrlOffsetAux : List Char → Nat → Nat
  | [], _ => 0
  | c :: rest, p =>
    if isCtrl c then max (p + 1) (ctrlOffsetAux rest (p + 1))
    else ctrlOffsetAux rest (p + 1)

/-- The carving offset: just past the last control-character match. -/
def ctrlOffset (s : List Char) : Nat := ctrlOffsetAux s 0

/-- The substitution `re.sub(r'\[\\(.)\]', r'\1', s)`: replace each non-overlapping
`[\<c>]` occurrence by `<c>`, scanning left to right; `.` does not match a
newline. -/
def stripEscapes : List Char → List Char
  | '[' :: '\\' :: c :: ']' :: rest2 =>
    if c = '\n' then '[' :: '\\' :: c :: ']' :: stripEscapes rest2
    else c :: stripEscapes rest2
  | c :: rest => c :: stripEscapes rest
  | [] => []

/-- Carving of a formatted-text (`0x33`) target: skip the row when no
control character occurs, otherwise strip escapes from the remainder past
the carving offset. -/
def carve0x33 (s : List Char) : Option (List Char) :=
  let off := ctrlOffset s
  if off = 0 then none else some (stripEscapes (s.drop off))

/-- The `MsiFileHash` step: `entry['Hash'] = struct.pack(...).hex()`, which
subscripts `row[2]` through `row[5]`. -/
def hashStep (tname : String) (row : List Nat) (entry : List (String × Cell)) :
    Except PyErr (List (String × Cell)) :=
  if tname = "MsiFileHash" then
    if row.length < 6 then .error .indexError
    else .ok (setEntry entry "Hash" (.txt (msiFileHashHex row)))
  else .ok entry

/-- The `CustomAction` artifact step, given the masked `code` and the
finished record: inline-script and formatted-text codes emit a derived
artifact; the `einfo['Target']`, `entry['Action']` and `entry['Target']`
lookups raise `KeyError` when the column is absent. -/
def artifactStep (cols : List (String × MSITableColumnInfo)) (code : Nat)
    (entry : List (String × Cell)) : Except PyErr (List (String × String)) :=
  if code = 0x25 ∨ code = 0x26 ∨ code = 0x33 then
    match (cols.find? fun p => p.1 == "Target").map (fun p => p.2) with
    | none => .error .keyError
    | some tinfo =>
      if tinfo.is_integer then .ok []
      else
        match lookupEntry entry "Action" with
        | none => .error .keyError
        | some pathCell =>
          match lookupEntry entry "Target" with
          | none => .error .keyError
          | some dataCell =>
            let path := "Action/" ++ pathCell.render
            if code = 0x33 then
              match carve0x33 dataCell.render.data with
              | none => .ok []
              | some out => .ok [(path, String.mk out)]
            else
              .ok [(path ++ "." ++ (if code = 0x25 then "js" else "vbs"),
                dataCell.render)]
  else .ok []

/-- One iteration of the row loop: cell typing, `MsiFileHash` hash
reconstruction, `CustomAction` comment labelling (the only step whose
failure the source catches: an unknown code is passed over), and the
artifact step; returns the record, the new pool state, and any artifacts. -/
def processRow (codec : List Nat → String) (tname : String)
    (cols : List (String × MSITableColumnInfo)) (s : MSIStringData)
    (row : List Nat) :
    Except PyErr (List (String × Cell) × MSIStringData × List (String × String)) :=
  let vs := cellValues codec (cols.map fun p => p.2) row s
  let entry := (cols.map fun p => p.1).zip vs.1
  match hashStep tname row entry with
  | .error e => .error e
  | .ok entry1 =>
    if tname = "CustomAction" then
      if row.length < 2 then .error .indexError
      else
        let code := row.getD 1 0 &&& 0x3F
        let entry2 := match lookupActionType code with
          | some d => setEntry entry1 "Comment" (.txt d)
          | none => entry1
        match artifactStep cols code entry2 with
        | .error e => .error e
        | .ok arts => .ok (entry2, vs.2, arts)
    else .ok (entry1, vs.2, [])

/-- The row loop of one table: rows are processed sequentially and the
first uncaught exception propagates, aborting the remaining rows. -/
def processRows (codec : List Nat → String) (tname : String)
    (cols : List (String × MSITableColumnInfo)) :
    MSIStringData → List (List Nat) →
    Except PyErr (List (List (String × Cell)) × MSIStringData × List (String × String))
  | s, [] => .ok ([], s, [])
  | s, row :: rows =>
    match processRow codec tname cols s row with
    | .error e => .error e
    | .ok (entry, s1, arts) =>
      match processRows codec tname cols s1 rows with
      | .error e => .error e
      | .ok (es, s2, arts2) => .ok (entry :: es, s2, arts ++ arts2)

/-- The table loop: tables are processed sequentially and an uncaught
exception propagates, aborting the remaining tables. -/
def processTables (codec : List Nat → String) :
    MSIStringData →
    List (String × List (String × MSITableColumnInfo) × List (List Nat)) →
    Except PyErr (List (String × List (List (String × Cell))) × MSIStringData ×
      List (String × String))
  | s, [] => .ok ([], s, [])
  | s, (tname, cols, rows) :: tables =>
    match processRows codec tname cols s rows with
    | .error e => .error e
    | .ok (es, s1, arts) =>
      match processTables codec s1 tables with
      | .error e => .error e
      | .ok (ts, s2, arts2) => .ok ((tname, es) :: ts, s2, arts ++ arts2)

/-- C5 counterexample: a `MsiFileHash` table whose schema has only two
columns makes the hash step subscript past the row's end; the raised error
aborts the whole decode, so a following table (which decodes fine on its
own) is never processed. -/
theorem c5_row_failure_aborts_counterexample :
    processTables (fun _ => "") (MSIStringData.mk [] [] [] 0)
      [("MsiFileHash", [("A", ⟨1, 0x502⟩), ("B", ⟨2, 0x502⟩)], [[1, 2]]),
       ("Foo", [("A", ⟨1, 0x502⟩)], [[7]])] = .error .indexError ∧
    processTables (fun _ => "") (MSIStringData.mk [] [] [] 0)
      [("Foo", [("A", ⟨1, 0x502⟩)], [[7]])] =
      .ok ([("Foo", [[("A", .num (-32761))]])], MSIStringData.mk [] [] [] 0, []) := by
  exact ⟨rfl, rfl⟩

/-- C5 (amended): the only isolated failure in the per-row derived
processing is the `Comment` lookup for an unknown `CustomAction` type code
(caught and passed over); any other failure — here, a `MsiFileHash` row
with fewer than six cells — propagates and aborts the remaining rows. -/
theorem c5_only_comment_lookup_isolated (codec : List Nat → String)
    (cols : List (String × MSITableColumnInfo)) (s : MSIStringData)
    (row : List Nat) (rows : List (List Nat)) (hshort : row.length < 6) :
    processRows codec "MsiFileHash" cols s (row :: rows) = .error .indexError ∧
    (2 ≤ row.length → (row.getD 1 0 &&& 0x3F) ∉ [0x25, 0x26, 0x33] →
      ∃ r, processRow codec "CustomAction" cols s row = .ok r) := by
  constructor
  · have h1 : ∀ e, hashStep "MsiFileHash" row e = .error .indexError := fun e => by
      unfold hashStep
      rw [if_pos rfl, if_pos hshort]
    simp only [processRows, processRow, h1]
  · intro h2 hnot
    have hh : ∀ e, hashStep "CustomAction" row e = .ok e := fun e => by
      unfold hashStep
      rw [if_neg (by decide)]
    have hlt : ¬ row.length < 2 := by omega
    simp only [List.mem_cons, List.not_mem_nil, or_false, not_or] at hnot
    have hart : ∀ e, artifactStep cols (row.getD 1 0 &&& 0x3F) e = .ok [] := fun e => by
      unfold artifactStep
      rw [if_neg (by tauto)]
    simp only [processRow, hh, if_pos rfl, hlt, if_false, hart]
    exact ⟨_, rfl⟩

/-- Witness for C5 on a two-cell `MsiFileHash` row. -/
theorem c5_only_comment_lookup_isolated_witness :
    processRows (fun _ => "") "MsiFileHash" [("A", ⟨1, 0x502⟩), ("B", ⟨2, 0x502⟩)]
      (MSIStringData.mk [] [] [] 0) [[1, 2]] = .error .indexError :=
  (c5_only_comment_lookup_isolated (fun _ => "") [("A", ⟨1, 0x502⟩), ("B", ⟨2, 0x502⟩)]
    (MSIStringData.mk [] [] [] 0) [1, 2] [] (by decide)).1

theorem ctrlOffsetAux_all_zero :
    ∀ (l : List Char) (base : Nat), (∀ c ∈ l, isCtrl c = false) →
    ctrlOffsetAux l base = 0 := by
  intro l
  induction l with
  | nil => intro base _; rfl
  | cons c rest ih =>
    intro base h
    unfold ctrlOffsetAux
    rw [if_neg (by simp [h c (List.mem_cons_self c rest)]),
      ih (base + 1) (fun c2 hc2 => h c2 (List.mem_cons_of_mem c hc2))]

theorem ctrlOffsetAux_last :
    ∀ (l : List Char) (base p : Nat), p < l.length →
    isCtrl (l.getD p ' ') = true →
    (∀ q, p < q → q < l.length → isCtrl (l.getD q ' ') = false) →
    ctrlOffsetAux l base = base + p + 1 := by
  intro l
  induction l with
  | nil => intro base p hp _ _; simp at hp
  | cons c rest ih =>
    intro base p hp hc hlast
    match p with
    | 0 =>
      rw [List.getD_cons_zero] at hc
      have hz : ctrlOffsetAux rest (base + 1) = 0 := by
        refine ctrlOffsetAux_all_zero rest (base + 1) fun c2 hc2 => ?_
        obtain ⟨⟨j, hj⟩, hget⟩ := List.mem_iff_get.mp hc2
        have := hlast (j + 1) (by omega) (by simpa using hj)
        rw [List.getD_cons_succ] at this
        rw [← hget, List.get_eq_getElem]
        rwa [List.getD_eq_getElem rest ' ' hj] at this
      unfold ctrlOffsetAux
      rw [if_pos hc, hz]
      omega
    | p + 1 =>
      rw [List.getD_cons_succ] at hc
      have hp2 : p < rest.length := by simpa using hp
      have hlast2 : ∀ q, p < q → q < rest.length → isCtrl (rest.getD q ' ') = false := by
        intro q hq1 hq2
        have := hlast (q + 1) (by omega) (by simpa using hq2)
        rwa [List.getD_cons_succ] at this
      have hrec : ctrlOffsetAux rest (base + 1) = base + 1 + p + 1 :=
        ih (base + 1) p hp2 hc hlast2
      unfold ctrlOffsetAux
      by_cases hcc : isCtrl c
      · rw [if_pos hcc, hrec]; omega
      · rw [if_neg hcc, hrec]; omega

/-- C6: the carving offset for a formatted-text (`0x33`) `CustomAction`
target is exactly one past the position of the last control character in
`\x01`–`\x05`; with no control character the row is skipped (no artifact);
otherwise the remainder past the offset has its `[\<c>]` escapes stripped;
and the concrete target `"\x01\x02Hello[\1]"` in a full `CustomAction` row
emits exactly the artifact `("Action/Name", "Hello1")`. -/
theorem c6_customaction_carving (s : List Char) (p : Nat) (hp : p < s.length)
    (hc : isCtrl (s.getD p ' ') = true)
    (hlast : ∀ q, p < q → q < s.length → isCtrl (s.getD q ' ') = false) :
    ctrlOffset s = p + 1 ∧
    carve0x33 s = some (stripEscapes (s.drop (p + 1))) ∧
    (∀ t : List Char, (∀ c ∈ t, isCtrl c = false) → carve0x33 t = none) ∧
    (processRow (fun bs => String.mk (bs.map Char.ofNat)) "CustomAction"
        [("Action", ⟨1, 0xD00⟩), ("Type", ⟨2, 0x502⟩), ("Target", ⟨3, 0xD00⟩)]
        (MSIStringData.mk [[1, 2, 72, 101, 108, 108, 111, 91, 92, 49, 93],
          [78, 97, 109, 101]] [0, 0] [0, 0] 0)
        [2, 0x33, 1]).map (fun r => r.2.2) =
      .ok [("Action/Name", "Hello1")] := by
  have hoff : ctrlOffset s = p + 1 := by
    have := ctrlOffsetAux_last s 0 p hp hc hlast
    unfold ctrlOffset
    omega
  refine ⟨hoff, ?_, ?_, by rfl⟩
  · unfold carve0x33
    rw [hoff, if_neg (by omega)]
  · intro t ht
    unfold carve0x33 ctrlOffset
    rw [ctrlOffsetAux_all_zero t 0 ht, if_pos rfl]

/-- Witness for C6 at the concrete target `"\x01\x02Hello[\1]"`,
whose last control character sits at position 1. -/
theorem c6_customaction_carving_witness :
    ctrlOffset [Char.ofNat 1, Char.ofNat 2, 'H', 'e', 'l', 'l', 'o', '[',
      '\\', '1', ']'] = 2 :=
  (c6_customaction_carving
    [Char.ofNat 1, Char.ofNat 2, 'H', 'e', 'l', 'l', 'o', '[', '\\', '1', ']']
    1 (by decide) (by decide)
    (fun q h1 h2 =>
      (by decide : ∀ q2, q2 < 11 → 1 < q2 →
        isCtrl ([Char.ofNat 1, Char.ofNat 2, 'H', 'e', 'l', 'l', 'o', '[',
          '\\', '1', ']'].getD q2 ' ') = false) q (by simpa using h2) h1)).1

theorem findOverwrite (k : String) (v : Cell) :
    ∀ e : List (String × Cell), e.any (fun p => p.1 == k) = true →
    ((e.map fun p => if p.1 == k then (k, v) else p).find? fun p => p.1 == k) =
      some (k, v) := by
  intro e
  induction e with
  | nil => intro h; simp at h
  | cons hd tl ih =>
    intro h
    by_cases hh : (hd.1 == k) = true
    · simp only [List.map_cons, if_pos hh]
      rw [List.find?_cons_of_pos _ (by simp)]
    · simp only [List.map_cons, if_neg hh]
      rw [List.find?_cons_of_neg _ (by simpa using hh)]
      refine ih ?_
      simp only [List.any_cons, hh, Bool.false_or] at h
      exact h

theorem lookupEntry_setEntry (e : List (String × Cell)) (k : String) (v : Cell) :
    lookupEntry (setEntry e k v) k = some v := by
  unfold setEntry
  by_cases h : e.any (fun p => p.1 == k) = true
  · rw [if_pos h]
    unfold lookupEntry
    rw [findOverwrite k v e h]
    rfl
  · rw [if_neg h]
    unfold lookupEntry
    rw [List.find?_append]
    have he : e.find? (fun p => p.1 == k) = none := by
      rw [List.find?_eq_none]
      intro x hx hpx
      exact h (List.any_eq_true.mpr ⟨x, hx, hpx⟩)
    rw [he]
    rw [List.find?_cons_of_pos _ (by simp)]
    rfl

/-- C7: for a `MsiFileHash` row with at least six cells, processing succeeds
with no artifacts and the record's `Hash` field is the lowercase hex
rendering of the 16 bytes obtained by XOR-ing the raw values of columns 2–5
with `0x80000000` and packing each as a little-endian `u32`; the bias XOR is
an involution, so applying it twice returns the stored values. -/
theorem c7_msifilehash_digest (codec : List Nat → String)
    (cols : List (String × MSITableColumnInfo)) (s : MSIStringData)
    (row : List Nat) (h6 : 6 ≤ row.length) :
    (∀ v : Nat, biasXor32 (biasXor32 v) = v) ∧
    msiFileHashHex row =
      bytesHex (u32le (biasXor32 (row.getD 2 0)) ++ u32le (biasXor32 (row.getD 3 0)) ++
        u32le (biasXor32 (row.getD 4 0)) ++ u32le (biasXor32 (row.getD 5 0))) ∧
    (∀ res s1 arts, processRow codec "MsiFileHash" cols s row = .ok (res, s1, arts) →
      lookupEntry res "Hash" = some (.txt (msiFileHashHex row)) ∧ arts = []) ∧
    (∃ r, processRow codec "MsiFileHash" cols s row = .ok r) := by
  have hh : ∀ e, hashStep "MsiFileHash" row e =
      .ok (setEntry e "Hash" (.txt (msiFileHashHex row))) := fun e => by
    unfold hashStep
    rw [if_pos rfl, if_neg (by omega)]
  have hmain : processRow codec "MsiFileHash" cols s row =
      .ok (setEntry ((cols.map fun p => p.1).zip
          (cellValues codec (cols.map fun p => p.2) row s).1) "Hash"
          (.txt (msiFileHashHex row)),
        (cellValues codec (cols.map fun p => p.2) row s).2, []) := by
    simp only [processRow, hh]
    rw [if_neg (by decide)]
  refine ⟨fun v => ?_, rfl, fun res s1 arts hok => ?_, ⟨_, hmain⟩⟩
  · unfold biasXor32
    rw [Nat.xor_assoc, Nat.xor_self, Nat.xor_zero]
  · rw [hmain] at hok
    injection hok with hok
    simp only [Prod.mk.injEq] at hok
    obtain ⟨h1, _, h3⟩ := hok
    subst h1
    exact ⟨lookupEntry_setEntry _ _ _, h3.symm⟩

/-- Witness for C7 on the row `[0, 0, 1, 2, 3, 4]` with an empty schema. -/
theorem c7_msifilehash_digest_witness :
    lookupEntry [("Hash", Cell.txt "01000080020000800300008004000080")] "Hash" =
      some (.txt (msiFileHashHex [0, 0, 1, 2, 3, 4])) ∧
    ([] : List (String × String)) = [] :=
  (c7_msifilehash_digest (fun _ => "") [] (MSIStringData.mk [] [] [] 0)
    [0, 0, 1, 2, 3, 4] (by decide)).2.2.1
    [("Hash", Cell.txt "01000080020000800300008004000080")]
    (MSIStringData.mk [] [] [] 0) [] (by rfl)

/-! ## C8: the string-reference consistency check

The loop `if c != p and not self.log_debug(...): inconsistencies += 1`
followed by `if inconsistencies: self.log_info(...)`.  Modelled from the
spec: the logging helpers are not part of the reviewed source; `log_debug`
emits its message (tagged with the entry's decoded text, obtained through
`ref(k + 1, False)`, which never mutates and never fails for `k` in range)
and returns `True` exactly when the detail log level is enabled.  The
embedding is a total function: no pool state makes it fail. -/

/-- One iteration of the consistency loop at index `k`: the accumulator
holds the `inconsistencies` counter and the detail messages emitted so far
(computed count, provided count, entry bytes). -/
def checkStep (s : MSIStringData) (debugEnabled : Bool)
    (acc : Nat × List (Nat × Nat × List Nat)) (k : Nat) :
    Nat × List (Nat × Nat × List Nat) :=
  let c := s.computed_ref_count.getD k 0
  let p := s.provided_ref_count.getD k 0
  if c ≠ p then
    if debugEnabled then (acc.1, acc.2 ++ [(c, p, s.strings.getD k [])])
    else (acc.1 + 1, acc.2)
  else acc

/-- The whole loop `for k in range(len(strings))`. -/
def checkFold (s : MSIStringData) (debugEnabled : Bool) :
    Nat × List (Nat × Nat × List Nat) :=
  (List.range s.strings.length).foldl (checkStep s debugEnabled) (0, [])

/-- The statement `if inconsistencies: self.log_info(f'found {inconsistencies} …')`:
the aggregate count reported at the higher level, when nonzero. -/
def aggregateReport (s : MSIStringData) (debugEnabled : Bool) : Option Nat :=
  if (checkFold s debugEnabled).1 = 0 then none else some (checkFold s debugEnabled).1

/-- The indices whose computed and provided reference counts disagree. -/
def mismatches (s : MSIStringData) : List Nat :=
  (List.range s.strings.length).filter fun k =>
    decide (s.computed_ref_count.getD k 0 ≠ s.provided_ref_count.getD k 0)

theorem foldl_checkStep (s : MSIStringData) (debugEnabled : Bool) :
    ∀ (ks : List Nat) (a : Nat) (l : List (Nat × Nat × List Nat)),
    ks.foldl (checkStep s debugEnabled) (a, l) =
      (a + (if debugEnabled then 0 else (ks.filter fun k =>
          decide (s.computed_ref_count.getD k 0 ≠ s.provided_ref_count.getD k 0)).length),
       l ++ (if debugEnabled then (ks.filter fun k =>
          decide (s.computed_ref_count.getD k 0 ≠ s.provided_ref_count.getD k 0)).map
          (fun k => (s.computed_ref_count.getD k 0, s.provided_ref_count.getD k 0,
            s.strings.getD k []))
        else [])) := by
  intro ks
  induction ks with
  | nil => intro a l; cases debugEnabled <;> simp
  | cons k ks ih =>
    intro a l
    rw [List.foldl_cons]
    by_cases hm : s.computed_ref_count.getD k 0 ≠ s.provided_ref_count.getD k 0
    · have hd : decide (s.computed_ref_count.getD k 0 ≠
          s.provided_ref_count.getD k 0) = true := decide_eq_true hm
      cases debugEnabled with
      | false =>
        have hstep : checkStep s false (a, l) k = (a + 1, l) := by
          unfold checkStep
          rw [if_pos hm, if_neg (by simp)]
        rw [hstep, ih]
        simp only [List.filter_cons, hd, if_true, List.length_cons,
          Bool.false_eq_true, if_false, Prod.mk.injEq]
        exact ⟨by omega, trivial⟩
      | true =>
        have hstep : checkStep s true (a, l) k =
            (a, l ++ [(s.computed_ref_count.getD k 0, s.provided_ref_count.getD k 0,
              s.strings.getD k [])]) := by
          unfold checkStep
          rw [if_pos hm, if_pos rfl]
        rw [hstep, ih]
        simp only [List.filter_cons, hd, if_true, List.map_cons, Prod.mk.injEq,
          List.append_assoc, List.singleton_append]
    · have hd : decide (s.computed_ref_count.getD k 0 ≠
          s.provided_ref_count.getD k 0) = false := decide_eq_false hm
      have hstep : checkStep s debugEnabled (a, l) k = (a, l) := by
        unfold checkStep
        rw [if_neg hm]
      rw [hstep, ih]
      simp only [List.filter_cons, hd, Bool.false_eq_true, if_false]

/-- C8 counterexample: on a pool with one mismatching entry and the detail
log level enabled, every mismatch is individually logged, the
`inconsistencies` counter stays 0, and no aggregate count is reported —
the aggregate mismatch count is not reported for every pool state. -/
theorem c8_aggregate_counterexample :
    (mismatches (MSIStringData.mk [[97]] [5] [0] 0)).length = 1 ∧
    aggregateReport (MSIStringData.mk [[97]] [5] [0] 0) true = none ∧
    (none : Option Nat) ≠
      some (mismatches (MSIStringData.mk [[97]] [5] [0] 0)).length := by
  decide

/-- C8 (amended): the check compares computed to provided for every entry
and never raises (`ref(k+1, False)` succeeds for every index the loop
visits).  When the detail level is disabled, nothing is logged per entry
and the aggregate count reported equals the exact number of mismatches
(absent when zero).  When the detail level is enabled, each mismatch is
logged with the entry's bytes, and the counter — which only counts
mismatches whose detail message was not emitted — stays 0, so no aggregate
count is reported. -/
theorem c8_consistency_check (s : MSIStringData) :
    (checkFold s false).1 = (mismatches s).length ∧
    (checkFold s false).2 = [] ∧
    aggregateReport s false =
      (if (mismatches s).length = 0 then none else some (mismatches s).length) ∧
    (checkFold s true).1 = 0 ∧
    (checkFold s true).2 = (mismatches s).map (fun k =>
      (s.computed_ref_count.getD k 0, s.provided_ref_count.getD k 0,
        s.strings.getD k [])) ∧
    aggregateReport s true = none ∧
    (∀ k, k < s.strings.length → ∃ r, s.ref ((k : Int) + 1) false = .ok r) := by
  have h1 : (checkFold s false).1 = (mismatches s).length := by
    unfold checkFold mismatches
    rw [foldl_checkStep s false]
    simp
  have h2 : (checkFold s false).2 = [] := by
    unfold checkFold
    rw [foldl_checkStep s false]
    simp
  have h4 : (checkFold s true).1 = 0 := by
    unfold checkFold
    rw [foldl_checkStep s true]
    simp
  have h5 : (checkFold s true).2 = (mismatches s).map (fun k =>
      (s.computed_ref_count.getD k 0, s.provided_ref_count.getD k 0,
        s.strings.getD k [])) := by
    unfold checkFold mismatches
    rw [foldl_checkStep s true]
    simp
  refine ⟨h1, h2, ?_, h4, h5, ?_, ?_⟩
  · unfold aggregateReport
    rw [h1]
  · unfold aggregateReport
    rw [h4]
    simp
  · intro k hk
    refine ⟨(s.strings.getD k [], s), ?_⟩
    unfold MSIStringData.ref
    rw [if_neg (by omega)]
    have : ((k : Int) + 1).toNat - 1 = k := by omega
    rw [this, if_pos hk]
    simp

/-- Witness for C8 on a one-entry pool with a reference-count mismatch. -/
theorem c8_consistency_check_witness :
    (checkFold (MSIStringData.mk [[97]] [5] [0] 0) false).1 =
      (mismatches (MSIStringData.mk [[97]] [5] [0] 0)).length :=
  (c8_consistency_check (MSIStringData.mk [[97]] [5] [0] 0)).1

/-! ## C10: final artifact assembly

After the ignored streams are dropped, `unpack` renames every remaining
path through `fix_msi_path`, adds the `MsiTables.json` document, and yields
the streams with `for path in sorted(streams)`.  The output path sequence
is therefore the lexicographically sorted enumeration of the final key
set, and the whole assembly is a pure function of its inputs. -/

/-- The split `path.partition('.')` restricted to what the caller uses: the part
before the first dot and the part after it, when a dot exists. -/
def splitDotAux : List Char → Option (List Char × List Char)
  | [] => none
  | '.' :: rest => some ([], rest)
  | c :: rest => (splitDotAux rest).map fun pr => (c :: pr.1, pr.2)

/-- ASCII lowercasing of one character (`str.lower` restricted to the
ASCII path names compared against the literal `'binary'`). -/
def asciiLower (c : Char) : Char :=
  if 'A' ≤ c ∧ c ≤ 'Z' then Char.ofNat (c.toNat + 32) else c

/-- The rename `fix_msi_path`: a path of the shape `Binary.<name>` (case-insensitive
prefix) becomes `<prefix>/<name>`; everything else is unchanged. -/
def fix_msi_path (p : String) : String :=
  match splitDotAux p.data with
  | none => p
  | some (pre, name) =>
    if pre.map asciiLower = "binary".data then String.mk (pre ++ '/' :: name)
    else p

/-- The path sequence of the final `yield` loop: rename all remaining
stream paths, add the JSON document's fixed name, and enumerate the
resulting key set in sorted order. -/
def finalPaths (paths : List String) : List String :=
  List.insertionSort (fun a b => a ≤ b)
    ((paths.map fix_msi_path ++ ["MsiTables.json"]).dedup)

/-- C10: for every input stream set, the emitted artifact paths are in
lexicographically sorted order (not discovery or insertion order), the
`MsiTables.json` document is always among them, and the path set is
exactly determined by the input paths — a deterministic function of the
input streams. -/
theorem c10_sorted_deterministic_output (paths : List String) :
    List.Sorted (fun a b => a ≤ b) (finalPaths paths) ∧
    "MsiTables.json" ∈ finalPaths paths ∧
    (∀ p, p ∈ finalPaths paths ↔
      p = "MsiTables.json" ∨ ∃ q ∈ paths, fix_msi_path q = p) := by
  refine ⟨List.sorted_insertionSort _ _, ?_, fun p => ?_⟩
  · unfold finalPaths
    rw [(List.perm_insertionSort _ _).mem_iff, List.mem_dedup]
    simp
  · unfold finalPaths
    rw [(List.perm_insertionSort _ _).mem_iff, List.mem_dedup]
    simp [or_comm, eq_comm]

/-- Witness for C10 on a single `Binary.x` input stream. -/
theorem c10_sorted_deterministic_output_witness :
    "MsiTables.json" ∈ finalPaths ["Binary.x"] :=
  (c10_sorted_deterministic_output ["Binary.x"]).2.1

end Msi
